import Mathlib

/- Shallow embedding of the content-selection and effect-planning engine of
the e-la-la pipeline (src/src/analysis/engagement.py, src/src/analysis/semantic.py,
src/src/edit/rich_effects.py).  Python floats are modelled as rationals, sample
counts as naturals.  Python's `list.sort` is a stable sort; it is modelled here
by a structural stable insertion sort (`sortLe`): a stable sort's output is
uniquely determined by the comparison, so the two agree extensionally. -/

/-- Stable insertion of `x` into `l`: `x` is placed before the first element
`y` with `le x y`, so among elements comparing equal the earlier one stays
first, as in Python's stable sort. -/
def insertLe {α : Type} (le : α → α → Bool) (x : α) : List α → List α
  | [] => [x]
  | y :: ys => if le x y then x :: y :: ys else y :: insertLe le x ys

/-- Stable sort by the Boolean comparison `le` (model of Python `list.sort`). -/
def sortLe {α : Type} (le : α → α → Bool) : List α → List α
  | [] => []
  | x :: xs => insertLe le x (sortLe le xs)

/- ===== engagement.py ===== -/

/-- Python `range(0, stop, step)` for `step > 0`: the start offsets visited by
the RMS loop of `_score_series` (engagement.py line 21). -/
def pyRange (stop step : Nat) : List Nat :=
  (List.range ((stop + step - 1) / step)).map (fun k => k * step)

/-- Chunks of the waveform `y` over which `_score_series` computes RMS entries
(engagement.py lines 20-25): for each `s` in `range(0, max(1, len(y) - win), hop)`
the chunk is `y[s : s+win]`; empty chunks are skipped (`if len(seg) == 0: continue`).
Each kept chunk contributes exactly one RMS entry `sqrt(mean(chunk ** 2))`; only
the chunk, not the irrational RMS value, is modelled. -/
def rmsChunks (y : List ℚ) (win hop : Nat) : List (List ℚ) :=
  ((pyRange (max 1 (y.length - win)) hop).map (fun s => (y.drop s).take win)).filter
    (fun c => !c.isEmpty)

/-- First-occurrence argmax, the semantics of `np.argmax`: index of the maximum
value, lowest index on ties; `0` on the empty list. -/
def argmaxFirst : List ℚ → Nat
  | [] => 0
  | [_] => 0
  | x :: y :: ys =>
    let j := argmaxFirst (y :: ys)
    if x < (y :: ys).getD j 0 then j + 1 else 0

/-- Selection logic of `best_window` (engagement.py lines 80-85) with the fused
score series of `_score_series` abstracted as the input `score`:
`best_idx = int(np.argmax(score)) if len(score) else 0`,
`start_sec = best_idx * stride`, returned score `score[best_idx]` (0.0 when the
series is empty, matching the Python fallback since `argmaxFirst [] = 0` and
`getD` defaults to 0). -/
def best_window (score : List ℚ) (stride : ℚ) : ℚ × ℚ :=
  ((argmaxFirst score : ℚ) * stride, score.getD (argmaxFirst score) 0)

/-- Candidate window of `top_windows_multi`: `(start_sec, duration_sec, score)`. -/
abbrev Window := ℚ × ℚ × ℚ

/-- Python `overlaps(a, b)` from `top_windows_multi` (engagement.py lines 110-113):
`not (a1 + min_gap_sec <= b0 or b1 + min_gap_sec <= a0)` with `a1 = a0 + dur_a`. -/
def overlapsB (minGap : ℚ) (a b : Window) : Bool :=
  !(decide (a.1 + a.2.1 + minGap ≤ b.1) || decide (b.1 + b.2.1 + minGap ≤ a.1))

/-- Greedy accept loop of `top_windows_multi` (engagement.py lines 115-120):
stop at `max_clips` accepted, skip a candidate overlapping any accepted one,
otherwise append it. -/
def greedyPick (maxClips : Nat) (minGap : ℚ) : List Window → List Window → List Window
  | [], chosen => chosen
  | c :: rest, chosen =>
    if maxClips ≤ chosen.length then chosen
    else if chosen.any (fun w => overlapsB minGap c w) then greedyPick maxClips minGap rest chosen
    else greedyPick maxClips minGap rest (chosen ++ [c])

/-- Selection logic of `top_windows_multi` (engagement.py lines 99-123), with
`_score_series` abstracted: `series` carries, for each requested duration, the
fused score list `_score_series` returns for it.  Candidates `(i*stride, dur, s_i)`
are pooled, sorted by score descending (stable), greedily filtered for
non-overlap, then re-sorted by start time. -/
def top_windows_multi (series : List (ℚ × List ℚ)) (stride_sec : ℚ)
    (max_clips : Nat) (min_gap_sec : ℚ) : List Window :=
  let candidates := series.flatMap
    (fun p => p.2.enum.map (fun q => ((q.1 : ℚ) * stride_sec, p.1, q.2)))
  let sortedC := sortLe (fun a b => decide (b.2.2 ≤ a.2.2)) candidates
  let chosen := greedyPick max_clips min_gap_sec sortedC []
  sortLe (fun a b => decide (a.1 ≤ b.1)) chosen

/-- Non-overlap of two windows with a gap buffer: the property the spec states
for results of `top_windows_multi`. -/
def NonOverlap (minGap : ℚ) (a b : Window) : Prop :=
  a.1 + a.2.1 + minGap ≤ b.1 ∨ b.1 + b.2.1 + minGap ≤ a.1

instance (minGap : ℚ) (a b : Window) : Decidable (NonOverlap minGap a b) := by
  unfold NonOverlap; infer_instance

/- ===== semantic.py ===== -/

/-- Transcript segment as consumed by `pick_idea_endpoint`: `end_sec` models
`float(seg.get('end', 0.0))` and `text` models `seg.get('text') or ''`. -/
structure TranscriptSeg where
  end_sec : ℚ
  text : String
deriving DecidableEq

/-- Transcript dictionary: only the `'segments'` list is consumed. -/
structure Transcript where
  segments : List TranscriptSeg
deriving DecidableEq

/-- Python `(text or '').strip().endswith(('.', '!', '?'))` (semantic.py line 52). -/
def endsSentence (t : String) : Bool :=
  t.trim.endsWith "." || t.trim.endsWith "!" || t.trim.endsWith "?"

/-- First pass over transcript segments (semantic.py lines 47-54): first segment
whose end lies in `[minE, maxE]` and whose trimmed text ends in sentence
punctuation. -/
def findPunct (minE maxE : ℚ) : List TranscriptSeg → Option ℚ
  | [] => none
  | s :: rest =>
    if (minE ≤ s.end_sec ∧ s.end_sec ≤ maxE) ∧ endsSentence s.text then some s.end_sec
    else findPunct minE maxE rest

/-- Fallback pass over transcript segments (semantic.py lines 55-61): first
segment whose end lies in `[minE, maxE]`, regardless of punctuation. -/
def findInRange (minE maxE : ℚ) : List TranscriptSeg → Option ℚ
  | [] => none
  | s :: rest =>
    if minE ≤ s.end_sec ∧ s.end_sec ≤ maxE then some s.end_sec
    else findInRange minE maxE rest

/-- Transcript candidate of `pick_idea_endpoint` (semantic.py lines 45-61):
punctuation match first, otherwise first in-range segment end; `none` when the
transcript is absent. -/
def transcriptCandidate (t : Option Transcript) (minE maxE : ℚ) : Option ℚ :=
  match t with
  | none => none
  | some tr =>
    match findPunct minE maxE tr.segments with
    | some v => some v
    | none => findInRange minE maxE tr.segments

/-- Silence candidate of `pick_idea_endpoint` (semantic.py lines 63-67): the
first silence interval, in the order given, whose start lies in `[minE, maxE]`. -/
def silenceCandidate (minE maxE : ℚ) : List (ℚ × ℚ) → Option ℚ
  | [] => none
  | (s, _) :: rest => if minE ≤ s ∧ s ≤ maxE then some s else silenceCandidate minE maxE rest

/-- Endpoint picker `pick_idea_endpoint` (semantic.py lines 31-77): acceptance
window `[start_hint + min_dur, start_hint + max_dur]`; both candidates present
takes the earlier, one present takes it, none falls back to the window's upper
bound.  The Python function is total: it never raises, for any arguments. -/
def pick_idea_endpoint (transcript : Option Transcript) (silences : List (ℚ × ℚ))
    (start_hint : ℚ) (min_dur : ℚ) (max_dur : ℚ) : ℚ :=
  match transcriptCandidate transcript (start_hint + min_dur) (start_hint + max_dur),
        silenceCandidate (start_hint + min_dur) (start_hint + max_dur) silences with
  | some ct, some cs => min ct cs
  | some ct, none => ct
  | none, some cs => cs
  | none, none => start_hint + max_dur

/- ===== rich_effects.py ===== -/

/-- Effect kinds listed in the `EffectSegment` dataclass (rich_effects.py line 29). -/
inductive EffectType where
  | full_frame
  | zoom_in
  | zoom_out
  | split_screen
  | pan_left
  | pan_right
deriving DecidableEq

/-- Values stored in an effect's `params` dict: strings or numbers. -/
inductive ParamVal where
  | str (s : String)
  | num (q : ℚ)
deriving DecidableEq

/-- Dataclass `PersonSegment` (rich_effects.py lines 15-21). -/
structure PersonSegment where
  start_sec : ℚ
  end_sec : ℚ
  person_count : ℤ
  confidence : ℚ
deriving DecidableEq

/-- Dataclass `EffectSegment` (rich_effects.py lines 24-30). -/
structure EffectSegment where
  start_sec : ℚ
  end_sec : ℚ
  effect_type : EffectType
  params : List (String × ParamVal)
deriving DecidableEq

/-- Params of the `full_frame` filler segments (rich_effects.py lines 150 and 220). -/
def fillerParams : List (String × ParamVal) := [("transition", ParamVal.str "fade")]

/-- Effects emitted for a single person segment by the rule table of
`plan_rich_effects` (rich_effects.py lines 153-210), before any gap filler. -/
def segBody (s : PersonSegment) : List EffectSegment :=
  let dur := s.end_sec - s.start_sec
  if 2 ≤ s.person_count ∧ 8 < dur then
    let mid := s.start_sec + dur / 2
    [⟨s.start_sec, mid, EffectType.zoom_in,
      [("target_scale", ParamVal.num (3/2)), ("focus", ParamVal.str "left")]⟩,
     ⟨mid, s.end_sec, EffectType.split_screen,
      [("orientation", ParamVal.str "horizontal")]⟩]
  else if 2 ≤ s.person_count then
    [⟨s.start_sec, s.end_sec, EffectType.zoom_in,
      [("target_scale", ParamVal.num (13/10)), ("focus", ParamVal.str "center")]⟩]
  else if s.person_count = 1 ∧ 5 < dur then
    let mid := s.start_sec + dur / 2
    [⟨s.start_sec, mid, EffectType.zoom_in,
      [("target_scale", ParamVal.num (7/5)), ("focus", ParamVal.str "center")]⟩,
     ⟨mid, s.end_sec, EffectType.pan_left,
      [("zoom_scale", ParamVal.num (6/5))]⟩]
  else
    [⟨s.start_sec, s.end_sec, EffectType.zoom_in,
      [("target_scale", ParamVal.num (6/5)), ("focus", ParamVal.str "center")]⟩]

/-- Effects emitted for one loop iteration of `plan_rich_effects`
(rich_effects.py lines 143-212): a `full_frame` filler when the segment starts
more than 1.0s after `current_time`, then the rule-table effects. -/
def segEffects (ct : ℚ) (s : PersonSegment) : List EffectSegment :=
  (if ct + 1 < s.start_sec then [⟨ct, s.start_sec, EffectType.full_frame, fillerParams⟩] else [])
    ++ segBody s

/-- The per-segment loop of `plan_rich_effects`, tracking `current_time`. -/
def planAux : ℚ → List PersonSegment → List EffectSegment
  | _, [] => []
  | ct, s :: rest => segEffects ct s ++ planAux s.end_sec rest

/-- Value of `current_time` after the loop: the last segment's end, or the
initial 0.0 when there are no segments. -/
def lastEnd : ℚ → List PersonSegment → ℚ
  | ct, [] => ct
  | _, s :: rest => lastEnd s.end_sec rest

/-- Stable sort of person segments by `start_sec`
(`person_segments.sort(key=lambda x: x.start_sec)`, rich_effects.py line 138). -/
def sortBySegStart (l : List PersonSegment) : List PersonSegment :=
  sortLe (fun a b => decide (a.start_sec ≤ b.start_sec)) l

/-- Planner `plan_rich_effects` (rich_effects.py lines 119-223).  The
`input_path` parameter of the source is never used by the planning logic and is
omitted.  Sorts the person segments by start time, runs the per-segment rule
table while tracking `current_time`, and appends a trailing `full_frame` filler
when `current_time < duration`. -/
def plan_rich_effects (duration : ℚ) (person_segments : List PersonSegment) :
    List EffectSegment :=
  let sorted := sortBySegStart person_segments
  planAux 0 sorted ++
    (if lastEnd 0 sorted < duration then
      [⟨lastEnd 0 sorted, duration, EffectType.full_frame, fillerParams⟩]
    else [])

/-- Contiguous-coverage predicate: the effect list forms a gapless,
overlap-free chain of segments from time `a` to time `b` — each segment starts
where the previous one ended (the first at `a`), each has `start_sec ≤ end_sec`,
and the last ends at `b` (for the empty list, `a = b`). -/
def ChainFrom : ℚ → ℚ → List EffectSegment → Prop
  | a, b, [] => a = b
  | a, b, e :: rest => e.start_sec = a ∧ e.start_sec ≤ e.end_sec ∧ ChainFrom e.end_sec b rest

instance decChainFrom : (a b : ℚ) → (l : List EffectSegment) → Decidable (ChainFrom a b l)
  | a, b, [] => decidable_of_iff (a = b) Iff.rfl
  | a, b, e :: rest =>
    haveI := decChainFrom e.end_sec b rest
    decidable_of_iff (e.start_sec = a ∧ e.start_sec ≤ e.end_sec ∧ ChainFrom e.end_sec b rest)
      Iff.rfl

/-- Validity of an input person-segment list relative to a duration `d`,
starting from time `ct`: segments are sorted, pairwise non-overlapping, each
well-formed (`start_sec ≤ end_sec`) and contained in `[ct, d]`. -/
def ValidChain (d : ℚ) : ℚ → List PersonSegment → Prop
  | _, [] => True
  | ct, s :: rest =>
    ct ≤ s.start_sec ∧ s.start_sec ≤ s.end_sec ∧ s.end_sec ≤ d ∧ ValidChain d s.end_sec rest

instance decValidChain (d : ℚ) : (ct : ℚ) → (l : List PersonSegment) → Decidable (ValidChain d ct l)
  | _, [] => decidable_of_iff True Iff.rfl
  | ct, s :: rest =>
    haveI := decValidChain d s.end_sec rest
    decidable_of_iff
      (ct ≤ s.start_sec ∧ s.start_sec ≤ s.end_sec ∧ s.end_sec ≤ d ∧ ValidChain d s.end_sec rest)
      Iff.rfl

/-- Gap condition under which the planner's filler rule produces a contiguous
plan: each person segment starts either exactly at the running `current_time`
(the previous segment's end, initially 0) or more than 1.0s after it, so the
planner's `> current_time + 1.0` filler test (rich_effects.py line 145) fires
exactly on the nonzero gaps. -/
def GapOK : ℚ → List PersonSegment → Prop
  | _, [] => True
  | ct, s :: rest => (s.start_sec = ct ∨ ct + 1 < s.start_sec) ∧ GapOK s.end_sec rest

instance decGapOK : (ct : ℚ) → (l : List PersonSegment) → Decidable (GapOK ct l)
  | _, [] => decidable_of_iff True Iff.rfl
  | ct, s :: rest =>
    haveI := decGapOK s.end_sec rest
    decidable_of_iff ((s.start_sec = ct ∨ ct + 1 < s.start_sec) ∧ GapOK s.end_sec rest) Iff.rfl

/- ===== helper lemmas: stable sort ===== -/

theorem insertLe_perm {α : Type} (le : α → α → Bool) (x : α) :
    ∀ l : List α, (insertLe le x l).Perm (x :: l)
  | [] => List.Perm.refl _
  | y :: ys => by
    rw [insertLe]
    split
    · exact List.Perm.refl _
    · exact ((insertLe_perm le x ys).cons y).trans (List.Perm.swap x y ys)

theorem sortLe_perm {α : Type} (le : α → α → Bool) : ∀ l : List α, (sortLe le l).Perm l
  | [] => List.Perm.refl _
  | x :: xs => (insertLe_perm le x (sortLe le xs)).trans ((sortLe_perm le xs).cons x)

theorem sortLe_of_pairwise {α : Type} (le : α → α → Bool) :
    ∀ l : List α, l.Pairwise (fun a b => le a b = true) → sortLe le l = l
  | [], _ => rfl
  | x :: xs, h => by
    rw [List.pairwise_cons] at h
    rw [sortLe, sortLe_of_pairwise le xs h.2]
    cases xs with
    | nil => rfl
    | cons y ys =>
      rw [insertLe, if_pos (h.1 y (by simp))]

theorem pairwise_insertLe {α : Type} (le : α → α → Bool)
    (htot : ∀ a b, le a b = false → le b a = true)
    (htr : ∀ a b c, le a b = true → le b c = true → le a c = true) (x : α) :
    ∀ l : List α, l.Pairwise (fun a b => le a b = true) →
      (insertLe le x l).Pairwise (fun a b => le a b = true)
  | [], _ => by simp [insertLe]
  | y :: ys, h => by
    rw [List.pairwise_cons] at h
    rw [insertLe]
    by_cases hxy : le x y = true
    · rw [if_pos hxy, List.pairwise_cons]
      refine ⟨?_, List.pairwise_cons.mpr h⟩
      intro b hb
      rcases List.mem_cons.mp hb with rfl | hb
      · exact hxy
      · exact htr x y b hxy (h.1 b hb)
    · rw [if_neg hxy, List.pairwise_cons]
      refine ⟨?_, pairwise_insertLe le htot htr x ys h.2⟩
      intro b hb
      rcases List.mem_cons.mp ((insertLe_perm le x ys).mem_iff.mp hb) with rfl | hb
      · exact htot b y (by simpa using hxy)
      · exact h.1 b hb

theorem pairwise_sortLe {α : Type} (le : α → α → Bool)
    (htot : ∀ a b, le a b = false → le b a = true)
    (htr : ∀ a b c, le a b = true → le b c = true → le a c = true) :
    ∀ l : List α, (sortLe le l).Pairwise (fun a b => le a b = true)
  | [] => List.Pairwise.nil
  | x :: xs => pairwise_insertLe le htot htr x (sortLe le xs) (pairwise_sortLe le htot htr xs)

/- ===== helper lemmas: top_windows_multi ===== -/

theorem overlapsB_eq_false {g : ℚ} {a b : Window} :
    overlapsB g a b = false ↔ NonOverlap g a b := by
  unfold overlapsB NonOverlap
  cases h1 : decide (a.1 + a.2.1 + g ≤ b.1) <;>
    cases h2 : decide (b.1 + b.2.1 + g ≤ a.1) <;> simp_all

theorem greedyPick_pairwise (maxClips : Nat) (g : ℚ) :
    ∀ (cands chosen : List Window), chosen.Pairwise (NonOverlap g) →
      (greedyPick maxClips g cands chosen).Pairwise (NonOverlap g)
  | [], _, h => h
  | c :: rest, chosen, h => by
    rw [greedyPick]
    split
    · exact h
    · split
      · exact greedyPick_pairwise maxClips g rest chosen h
      · refine greedyPick_pairwise maxClips g rest (chosen ++ [c]) ?_
        rw [List.pairwise_append]
        refine ⟨h, List.pairwise_singleton _ _, ?_⟩
        intro a ha b hb
        rw [List.mem_singleton] at hb
        subst hb
        rename_i hnotany
        have hfalse : overlapsB g b a = false := by
          by_contra hne
          exact hnotany (List.any_eq_true.mpr ⟨a, ha, by simpa using hne⟩)
        exact (overlapsB_eq_false.mp hfalse).symm

/- ===== helper lemmas: argmax ===== -/

theorem argmaxFirst_lt_length : ∀ (l : List ℚ), l ≠ [] → argmaxFirst l < l.length
  | [], h => absurd rfl h
  | [_], _ => by simp [argmaxFirst]
  | x :: y :: ys, _ => by
    have ih := argmaxFirst_lt_length (y :: ys) (by simp)
    simp only [argmaxFirst]
    split
    · simpa using Nat.succ_lt_succ ih
    · simp

theorem argmaxFirst_le : ∀ (l : List ℚ) (j : Nat), j < l.length →
    l.getD j 0 ≤ l.getD (argmaxFirst l) 0
  | [], j, h => by simp at h
  | [x], j, h => by
    have : j = 0 := by simpa using h
    subst this
    simp [argmaxFirst]
  | x :: y :: ys, j, h => by
    simp only [argmaxFirst]
    split
    next hlt =>
      rw [List.getD_cons_succ]
      cases j with
      | zero => rw [List.getD_cons_zero]; exact le_of_lt hlt
      | succ k =>
        rw [List.getD_cons_succ]
        exact argmaxFirst_le (y :: ys) k (by simpa using h)
    next hge =>
      rw [List.getD_cons_zero]
      cases j with
      | zero => rw [List.getD_cons_zero]
      | succ k =>
        rw [List.getD_cons_succ]
        exact le_trans (argmaxFirst_le (y :: ys) k (by simpa using h)) (not_lt.mp hge)

theorem argmaxFirst_first : ∀ (l : List ℚ) (j : Nat), j < argmaxFirst l →
    l.getD j 0 < l.getD (argmaxFirst l) 0
  | [], j, h => by simp [argmaxFirst] at h
  | [_], j, h => by simp [argmaxFirst] at h
  | x :: y :: ys, j, h => by
    by_cases hc : x < (y :: ys).getD (argmaxFirst (y :: ys)) 0
    · have heq : argmaxFirst (x :: y :: ys) = argmaxFirst (y :: ys) + 1 := by
        rw [argmaxFirst]
        exact if_pos hc
      rw [heq] at h ⊢
      rw [List.getD_cons_succ]
      cases j with
      | zero => rw [List.getD_cons_zero]; exact hc
      | succ k =>
        rw [List.getD_cons_succ]
        exact argmaxFirst_first (y :: ys) k (Nat.lt_of_succ_lt_succ h)
    · have heq : argmaxFirst (x :: y :: ys) = 0 := by
        rw [argmaxFirst]
        exact if_neg hc
      rw [heq] at h
      exact absurd h (Nat.not_lt_zero j)

/- ===== helper lemmas: semantic boundary picker ===== -/

theorem findPunct_range : ∀ (l : List TranscriptSeg) {minE maxE v : ℚ},
    findPunct minE maxE l = some v → minE ≤ v ∧ v ≤ maxE
  | [], _, _, _, h => by simp [findPunct] at h
  | s :: rest, minE, maxE, v, h => by
    rw [findPunct] at h
    split at h
    next hc =>
      injection h with h
      subst h
      exact hc.1
    next => exact findPunct_range rest h

theorem findInRange_range : ∀ (l : List TranscriptSeg) {minE maxE v : ℚ},
    findInRange minE maxE l = some v → minE ≤ v ∧ v ≤ maxE
  | [], _, _, _, h => by simp [findInRange] at h
  | s :: rest, minE, maxE, v, h => by
    rw [findInRange] at h
    split at h
    next hc =>
      injection h with h
      subst h
      exact hc
    next => exact findInRange_range rest h

theorem transcriptCandidate_range {t : Option Transcript} {minE maxE v : ℚ}
    (h : transcriptCandidate t minE maxE = some v) : minE ≤ v ∧ v ≤ maxE := by
  cases t with
  | none => simp [transcriptCandidate] at h
  | some tr =>
    rw [transcriptCandidate] at h
    rcases hp : findPunct minE maxE tr.segments with _ | w
    · rw [hp] at h
      exact findInRange_range tr.segments h
    · rw [hp] at h
      injection h with h
      subst h
      exact findPunct_range tr.segments hp

theorem silenceCandidate_range : ∀ (l : List (ℚ × ℚ)) {minE maxE v : ℚ},
    silenceCandidate minE maxE l = some v → minE ≤ v ∧ v ≤ maxE
  | [], _, _, _, h => by simp [silenceCandidate] at h
  | p :: rest, minE, maxE, v, h => by
    rw [silenceCandidate] at h
    split at h
    next hc =>
      injection h with h
      subst h
      exact hc
    next => exact silenceCandidate_range rest h

/- ===== helper lemmas: rms chunking ===== -/

theorem pyRange_mem_lt {stop step s : Nat} (hstep : 0 < step)
    (hs : s ∈ pyRange stop step) : s < stop := by
  rcases List.mem_map.mp hs with ⟨k, hk, rfl⟩
  rw [List.mem_range] at hk
  have h2 : (k + 1) * step ≤ stop + step - 1 := (Nat.le_div_iff_mul_le hstep).mp hk
  rw [Nat.succ_mul] at h2
  omega

/- ===== helper lemmas: effect planner ===== -/

theorem chainFrom_append : ∀ (l1 : List EffectSegment) (a m b : ℚ) (l2 : List EffectSegment),
    ChainFrom a m l1 → ChainFrom m b l2 → ChainFrom a b (l1 ++ l2)
  | [], a, m, b, l2, h1, h2 => by
    rw [ChainFrom] at h1
    subst h1
    simpa using h2
  | e :: rest, a, m, b, l2, h1, h2 => by
    rw [ChainFrom] at h1
    exact ⟨h1.1, h1.2.1, chainFrom_append rest e.end_sec m b l2 h1.2.2 h2⟩

theorem segBody_chain (s : PersonSegment) (h : s.start_sec ≤ s.end_sec) :
    ChainFrom s.start_sec s.end_sec (segBody s) := by
  simp only [segBody]
  split
  next hc => exact ⟨rfl, by linarith, rfl, by linarith, rfl⟩
  next =>
    split
    next => exact ⟨rfl, h, rfl⟩
    next =>
      split
      next hc => exact ⟨rfl, by linarith, rfl, by linarith, rfl⟩
      next => exact ⟨rfl, h, rfl⟩

theorem segEffects_chain (ct : ℚ) (s : PersonSegment)
    (hgap : s.start_sec = ct ∨ ct + 1 < s.start_sec) (hse : s.start_sec ≤ s.end_sec) :
    ChainFrom ct s.end_sec (segEffects ct s) := by
  rw [segEffects]
  rcases hgap with heq | hlt
  · rw [if_neg (by rw [heq]; intro hcon; linarith)]
    rw [List.nil_append, ← heq]
    exact segBody_chain s hse
  · rw [if_pos hlt]
    exact chainFrom_append [⟨ct, s.start_sec, EffectType.full_frame, fillerParams⟩]
      ct s.start_sec s.end_sec (segBody s) ⟨rfl, by linarith, rfl⟩ (segBody_chain s hse)

theorem planAux_chain (d : ℚ) : ∀ (segs : List PersonSegment) (ct : ℚ),
    ValidChain d ct segs → GapOK ct segs →
    ChainFrom ct (lastEnd ct segs) (planAux ct segs)
  | [], _, _, _ => rfl
  | s :: rest, ct, hv, hg => by
    rw [ValidChain] at hv
    rw [GapOK] at hg
    rw [planAux, lastEnd]
    exact chainFrom_append (segEffects ct s) ct s.end_sec (lastEnd s.end_sec rest)
      (planAux s.end_sec rest) (segEffects_chain ct s hg.1 hv.2.1)
      (planAux_chain d rest s.end_sec hv.2.2.2 hg.2)

theorem lastEnd_le (d : ℚ) : ∀ (segs : List PersonSegment) (ct : ℚ),
    ValidChain d ct segs → ct ≤ d → lastEnd ct segs ≤ d
  | [], _, _, h => h
  | s :: rest, ct, hv, _ => by
    rw [ValidChain] at hv
    rw [lastEnd]
    exact lastEnd_le d rest s.end_sec hv.2.2.2 hv.2.2.1

theorem validChain_start_ge (d : ℚ) : ∀ (segs : List PersonSegment) (ct : ℚ),
    ValidChain d ct segs → ∀ s ∈ segs, ct ≤ s.start_sec
  | [], _, _, s, hs => absurd hs (List.not_mem_nil s)
  | s :: rest, ct, hv, x, hx => by
    rw [ValidChain] at hv
    rcases List.mem_cons.mp hx with rfl | hx
    · exact hv.1
    · have hr := validChain_start_ge d rest s.end_sec hv.2.2.2 x hx
      linarith [hv.1, hv.2.1]

theorem validChain_pairwise (d : ℚ) : ∀ (segs : List PersonSegment) (ct : ℚ),
    ValidChain d ct segs → segs.Pairwise (fun a b => a.start_sec ≤ b.start_sec)
  | [], _, _ => List.Pairwise.nil
  | s :: rest, ct, hv => by
    rw [ValidChain] at hv
    rw [List.pairwise_cons]
    refine ⟨?_, validChain_pairwise d rest s.end_sec hv.2.2.2⟩
    intro b hb
    have hr := validChain_start_ge d rest s.end_sec hv.2.2.2 b hb
    linarith [hv.2.1]

theorem chainFrom_start_ge : ∀ (l : List EffectSegment) (a b : ℚ),
    ChainFrom a b l → ∀ e ∈ l, a ≤ e.start_sec
  | [], _, _, _, e, he => absurd he (List.not_mem_nil e)
  | f :: rest, a, b, h, e, he => by
    rw [ChainFrom] at h
    rcases List.mem_cons.mp he with rfl | he
    · exact le_of_eq h.1.symm
    · have h1 : a ≤ f.end_sec := by rw [← h.1]; exact h.2.1
      have hr := chainFrom_start_ge rest f.end_sec b h.2.2 e he
      linarith

theorem chainFrom_pairwise : ∀ (l : List EffectSegment) (a b : ℚ), ChainFrom a b l →
    l.Pairwise (fun e f => e.start_sec ≤ f.start_sec)
  | [], _, _, _ => List.Pairwise.nil
  | e :: rest, a, b, h => by
    rw [ChainFrom] at h
    rw [List.pairwise_cons]
    refine ⟨?_, chainFrom_pairwise rest e.end_sec b h.2.2⟩
    intro f hf
    have hr := chainFrom_start_ge rest e.end_sec b h.2.2 f hf
    linarith [h.2.1]

theorem sortBySegStart_of_pairwise (segs : List PersonSegment)
    (h : segs.Pairwise (fun a b => a.start_sec ≤ b.start_sec)) :
    sortBySegStart segs = segs := by
  rw [sortBySegStart]
  exact sortLe_of_pairwise _ segs (h.imp (fun hab => by simpa using hab))

theorem segBody_types (s : PersonSegment) :
    ∀ e ∈ segBody s, e.effect_type = EffectType.full_frame ∨
      e.effect_type = EffectType.zoom_in ∨ e.effect_type = EffectType.split_screen ∨
      e.effect_type = EffectType.pan_left := by
  intro e he
  simp only [segBody] at he
  split at he
  · simp only [List.mem_cons, List.mem_singleton, List.not_mem_nil, or_false] at he
    rcases he with rfl | rfl <;> simp
  · split at he
    · simp only [List.mem_singleton] at he
      subst he
      simp
    · split at he
      · simp only [List.mem_cons, List.mem_singleton, List.not_mem_nil, or_false] at he
        rcases he with rfl | rfl <;> simp
      · simp only [List.mem_singleton] at he
        subst he
        simp

theorem planAux_types : ∀ (segs : List PersonSegment) (ct : ℚ) (e : EffectSegment),
    e ∈ planAux ct segs → e.effect_type = EffectType.full_frame ∨
      e.effect_type = EffectType.zoom_in ∨ e.effect_type = EffectType.split_screen ∨
      e.effect_type = EffectType.pan_left
  | [], _, e, he => absurd he (List.not_mem_nil e)
  | s :: rest, ct, e, he => by
    rw [planAux] at he
    rcases List.mem_append.mp he with h1 | h2
    · rw [segEffects] at h1
      rcases List.mem_append.mp h1 with hf | hb
      · split at hf
        · rw [List.mem_singleton] at hf
          subst hf
          exact Or.inl rfl
        · exact absurd hf (List.not_mem_nil e)
      · exact segBody_types s e hb
    · exact planAux_types rest s.end_sec e h2

/- ===== claim theorems ===== -/

/-- C1 (amended): for every totalDuration at least 0 and every valid person-segment
list (sorted, non-overlapping, well-formed, contained in the duration) in which
each segment starts either exactly at the previous segment's end (the first at 0)
or more than 1.0s after it, plan_rich_effects returns a plan that is sorted by
start time, contiguous, and exactly spans the interval from 0 to totalDuration
with no gaps or overlaps.  The gap condition is forced by the planner's filler
rule, which only emits a filler for gaps larger than 1.0s. -/
theorem plan_rich_effects_coverage (d : ℚ) (segs : List PersonSegment)
    (hd : 0 ≤ d) (hv : ValidChain d 0 segs) (hg : GapOK 0 segs) :
    ChainFrom 0 d (plan_rich_effects d segs) ∧
    (plan_rich_effects d segs).Pairwise (fun e f => e.start_sec ≤ f.start_sec) := by
  have hsort : sortBySegStart segs = segs :=
    sortBySegStart_of_pairwise segs (validChain_pairwise d segs 0 hv)
  have hmain : ChainFrom 0 d (plan_rich_effects d segs) := by
    simp only [plan_rich_effects, hsort]
    have hle : lastEnd 0 segs ≤ d := lastEnd_le d segs 0 hv hd
    by_cases hlt : lastEnd 0 segs < d
    · rw [if_pos hlt]
      exact chainFrom_append (planAux 0 segs) 0 (lastEnd 0 segs) d _
        (planAux_chain d segs 0 hv hg) ⟨rfl, le_of_lt hlt, rfl⟩
    · rw [if_neg hlt, List.append_nil]
      have heq : lastEnd 0 segs = d := le_antisymm hle (not_lt.mp hlt)
      rw [← heq]
      exact planAux_chain d segs 0 hv hg
  exact ⟨hmain, chainFrom_pairwise _ 0 d hmain⟩

/-- C1 witness: concrete instance (spec scenario 4): one two-person segment from
5 to 15 inside a 30-second clip satisfies the hypotheses and yields a sorted,
contiguous plan spanning exactly 0 to 30. -/
theorem plan_rich_effects_coverage_witness :
    ChainFrom 0 30 (plan_rich_effects 30 [⟨5, 15, 2, 9/10⟩]) ∧
    (plan_rich_effects 30 [⟨5, 15, 2, 9/10⟩]).Pairwise (fun e f => e.start_sec ≤ f.start_sec) :=
  plan_rich_effects_coverage 30 [⟨5, 15, 2, 9/10⟩] (by norm_num)
    (by norm_num [ValidChain]) (by norm_num [GapOK])

/-- C1 counterexample: with totalDuration 10 and the single valid person segment
from 0.5 to 5 (sorted, non-overlapping, contained in the duration), the plan is
not contiguous from 0: the segment starts 0.5s after time 0, which is at most the
planner's 1.0s filler threshold, so no filler is emitted and the plan's first
effect starts at 0.5, leaving the gap from 0 to 0.5 uncovered. -/
theorem plan_rich_effects_coverage_cex :
    (0:ℚ) ≤ 10 ∧ ValidChain 10 0 [⟨1/2, 5, 1, 1⟩] ∧
    ¬ (ChainFrom 0 10 (plan_rich_effects 10 [⟨1/2, 5, 1, 1⟩]) ∧
       (plan_rich_effects 10 [⟨1/2, 5, 1, 1⟩]).Pairwise (fun e f => e.start_sec ≤ f.start_sec)) := by
  refine ⟨by norm_num, by norm_num [ValidChain], ?_⟩
  intro hc
  have h1 := hc.1
  norm_num [plan_rich_effects, sortBySegStart, sortLe, insertLe, planAux, segEffects, segBody,
    lastEnd, ChainFrom] at h1

/-- C2: every result of top_windows_multi is pairwise non-overlapping with the
minGapSec buffer: for every pair of windows at distinct positions of the result,
either the first ends (start plus duration) at least minGapSec before the second
starts, or symmetrically. -/
theorem top_windows_multi_nonoverlap (series : List (ℚ × List ℚ)) (stride_sec : ℚ)
    (max_clips : Nat) (min_gap_sec : ℚ) :
    (top_windows_multi series stride_sec max_clips min_gap_sec).Pairwise
      (NonOverlap min_gap_sec) := by
  have h := greedyPick_pairwise max_clips min_gap_sec
    (sortLe (fun a b => decide (b.2.2 ≤ a.2.2))
      (series.flatMap (fun p => p.2.enum.map (fun q => ((q.1 : ℚ) * stride_sec, p.1, q.2)))))
    [] List.Pairwise.nil
  exact ((sortLe_perm (fun a b => decide (a.1 ≤ b.1)) _).pairwise_iff
    (fun hxy => Or.symm hxy)).mpr h

/-- C3: whenever minDur is at most maxDur, pick_idea_endpoint returns a value in
the closed interval from startHint plus minDur to startHint plus maxDur, for
every transcript (possibly absent), every silence list and every startHint. -/
theorem pick_idea_endpoint_bounds (t : Option Transcript) (sil : List (ℚ × ℚ))
    (start_hint min_dur max_dur : ℚ) (h : min_dur ≤ max_dur) :
    start_hint + min_dur ≤ pick_idea_endpoint t sil start_hint min_dur max_dur ∧
    pick_idea_endpoint t sil start_hint min_dur max_dur ≤ start_hint + max_dur := by
  rw [pick_idea_endpoint]
  rcases hct : transcriptCandidate t (start_hint + min_dur) (start_hint + max_dur) with _ | ct <;>
    rcases hcs : silenceCandidate (start_hint + min_dur) (start_hint + max_dur) sil with _ | cs <;>
    dsimp only
  · exact ⟨by linarith, le_refl _⟩
  · exact silenceCandidate_range sil hcs
  · exact transcriptCandidate_range hct
  · have h1 := transcriptCandidate_range hct
    have h2 := silenceCandidate_range sil hcs
    exact ⟨le_min h1.1 h2.1, le_trans (min_le_left ct cs) h1.2⟩

/-- C3 witness: spec scenario 1 (transcript segment ending at 25 with sentence
punctuation, no silences, startHint 0, minDur 20, maxDur 120): the result lies
in the interval from 20 to 120. -/
theorem pick_idea_endpoint_bounds_witness :
    (0:ℚ) + 20 ≤ pick_idea_endpoint (some ⟨[⟨25, "Hello there."⟩]⟩) [] 0 20 120 ∧
    pick_idea_endpoint (some ⟨[⟨25, "Hello there."⟩]⟩) [] 0 20 120 ≤ (0:ℚ) + 120 :=
  pick_idea_endpoint_bounds (some ⟨[⟨25, "Hello there."⟩]⟩) [] 0 20 120 (by norm_num)

/-- C4 (amended): calling pick_idea_endpoint with minDur greater than maxDur does
not fail: the acceptance window is empty, so neither candidate can exist and the
call silently returns startHint plus maxDur (the hard fallback).  No error is
raised or reported. -/
theorem pick_idea_endpoint_inverted_bounds (t : Option Transcript) (sil : List (ℚ × ℚ))
    (start_hint min_dur max_dur : ℚ) (h : max_dur < min_dur) :
    pick_idea_endpoint t sil start_hint min_dur max_dur = start_hint + max_dur := by
  rw [pick_idea_endpoint]
  rcases hct : transcriptCandidate t (start_hint + min_dur) (start_hint + max_dur) with _ | ct
  · rcases hcs : silenceCandidate (start_hint + min_dur) (start_hint + max_dur) sil with _ | cs
    · rfl
    · have h2 := silenceCandidate_range sil hcs
      exfalso
      linarith [h2.1, h2.2]
  · have h1 := transcriptCandidate_range hct
    exfalso
    linarith [h1.1, h1.2]

/-- C4 witness for the amended claim: with startHint 1, minDur 7, maxDur 4 the
call returns 1 plus 4, a plain value rather than an error. -/
theorem pick_idea_endpoint_inverted_bounds_witness :
    pick_idea_endpoint none [] 1 7 4 = 1 + 4 :=
  pick_idea_endpoint_inverted_bounds none [] 1 7 4 (by norm_num)

/-- C4 counterexample: at the concrete input (no transcript, no silences,
startHint 0, minDur 5, maxDur 3) the function returns the value 0 plus 3, i.e.
the out-of-contract parameters are silently coerced into the fallback return
value; no error path exists in the code, contradicting the claim that such a
call fails fast and loudly. -/
theorem pick_idea_endpoint_no_failfast_cex :
    pick_idea_endpoint none [] 0 5 3 = 0 + 3 := by
  norm_num [pick_idea_endpoint, transcriptCandidate, silenceCandidate]

/-- C5: for every nonempty fused score series, best_window returns
startSec = i * strideSec where i is an index of the maximum score, and every
index before i carries a strictly smaller score — so i is the lowest index
attaining the maximum (stable argmax, the semantics of np.argmax). -/
theorem best_window_argmax_stable (score : List ℚ) (stride : ℚ) (h : score ≠ []) :
    ∃ i : Nat, (best_window score stride).1 = (i : ℚ) * stride ∧ i < score.length ∧
      (∀ j, j < score.length → score.getD j 0 ≤ score.getD i 0) ∧
      (∀ j, j < i → score.getD j 0 < score.getD i 0) :=
  ⟨argmaxFirst score, rfl, argmaxFirst_lt_length score h,
    fun j hj => argmaxFirst_le score j hj, fun j hj => argmaxFirst_first score j hj⟩

/-- C5 witness: on the series 1, 3, 3 with stride 2, the returned start is
1 * 2 = 2, index 1 being the lowest index of the duplicated maximum 3. -/
theorem best_window_argmax_stable_witness :
    ∃ i : Nat, (best_window [(1:ℚ), 3, 3] 2).1 = (i : ℚ) * 2 ∧ i < [(1:ℚ), 3, 3].length ∧
      (∀ j, j < [(1:ℚ), 3, 3].length → [(1:ℚ), 3, 3].getD j 0 ≤ [(1:ℚ), 3, 3].getD i 0) ∧
      (∀ j, j < i → [(1:ℚ), 3, 3].getD j 0 < [(1:ℚ), 3, 3].getD i 0) :=
  best_window_argmax_stable [(1:ℚ), 3, 3] 2 (by simp)

/-- C6: the resolution rule of pick_idea_endpoint — when both the transcript
candidate and the silence candidate exist the earlier (minimum) of the two is
returned; when exactly one exists it is returned; when neither exists
startHint plus maxDur is returned. -/
theorem pick_idea_endpoint_resolution (t : Option Transcript) (sil : List (ℚ × ℚ))
    (start_hint min_dur max_dur : ℚ) :
    (∀ ct cs, transcriptCandidate t (start_hint + min_dur) (start_hint + max_dur) = some ct →
      silenceCandidate (start_hint + min_dur) (start_hint + max_dur) sil = some cs →
      pick_idea_endpoint t sil start_hint min_dur max_dur = min ct cs) ∧
    (∀ ct, transcriptCandidate t (start_hint + min_dur) (start_hint + max_dur) = some ct →
      silenceCandidate (start_hint + min_dur) (start_hint + max_dur) sil = none →
      pick_idea_endpoint t sil start_hint min_dur max_dur = ct) ∧
    (∀ cs, transcriptCandidate t (start_hint + min_dur) (start_hint + max_dur) = none →
      silenceCandidate (start_hint + min_dur) (start_hint + max_dur) sil = some cs →
      pick_idea_endpoint t sil start_hint min_dur max_dur = cs) ∧
    (transcriptCandidate t (start_hint + min_dur) (start_hint + max_dur) = none →
      silenceCandidate (start_hint + min_dur) (start_hint + max_dur) sil = none →
      pick_idea_endpoint t sil start_hint min_dur max_dur = start_hint + max_dur) := by
  refine ⟨?_, ?_, ?_, ?_⟩
  · intro ct cs hct hcs
    rw [pick_idea_endpoint, hct, hcs]
  · intro ct hct hcs
    rw [pick_idea_endpoint, hct, hcs]
  · intro cs hct hcs
    rw [pick_idea_endpoint, hct, hcs]
  · intro hct hcs
    rw [pick_idea_endpoint, hct, hcs]

/-- C6 witness: spec scenario 2 — no transcript, silences [(22, 23)], startHint 0,
minDur 20, maxDur 120: only the silence candidate (22) exists and it is returned. -/
theorem pick_idea_endpoint_resolution_witness :
    pick_idea_endpoint none [((22:ℚ), 23)] 0 20 120 = 22 :=
  (pick_idea_endpoint_resolution none [((22:ℚ), 23)] 0 20 120).2.2.1 22 rfl
    (by norm_num [silenceCandidate])

/-- C7 (amended): the value of pick_idea_endpoint depends on the silences list
only through its silence candidate, the first interval in the given order whose
start lies in the acceptance window: two silence lists with the same candidate
(or both with none) yield the same endpoint.  Full permutation invariance fails
because the scan takes the first in-range interval in list order, not the
smallest. -/
theorem pick_idea_endpoint_silence_congr (t : Option Transcript) (s1 s2 : List (ℚ × ℚ))
    (start_hint min_dur max_dur : ℚ)
    (hs : silenceCandidate (start_hint + min_dur) (start_hint + max_dur) s1 =
      silenceCandidate (start_hint + min_dur) (start_hint + max_dur) s2) :
    pick_idea_endpoint t s1 start_hint min_dur max_dur =
    pick_idea_endpoint t s2 start_hint min_dur max_dur := by
  rw [pick_idea_endpoint, pick_idea_endpoint, hs]

/-- C7 witness: the lists [(30, 31), (25, 26)] and [(30, 31)] have the same first
in-range silence start (30), so the endpoint is the same. -/
theorem pick_idea_endpoint_silence_congr_witness :
    pick_idea_endpoint none [((30:ℚ), 31), (25, 26)] 0 20 120 =
    pick_idea_endpoint none [((30:ℚ), 31)] 0 20 120 :=
  pick_idea_endpoint_silence_congr none [((30:ℚ), 31), (25, 26)] [((30:ℚ), 31)] 0 20 120
    (by norm_num [silenceCandidate])

/-- C7 counterexample: the silence lists [(30, 31), (25, 26)] and
[(25, 26), (30, 31)] are permutations of the same multiset, yet with no
transcript, startHint 0, minDur 20, maxDur 120 the picker returns 30 for the
first order and 25 for the second: the result is not order-independent. -/
theorem pick_idea_endpoint_order_cex :
    List.Perm [((30:ℚ), (31:ℚ)), (25, 26)] [((25:ℚ), (26:ℚ)), (30, 31)] ∧
    pick_idea_endpoint none [((30:ℚ), 31), (25, 26)] 0 20 120 = 30 ∧
    pick_idea_endpoint none [((25:ℚ), 26), (30, 31)] 0 20 120 = 25 ∧
    (30:ℚ) ≠ 25 := by
  refine ⟨List.Perm.swap _ _ _, ?_, ?_, by norm_num⟩ <;>
    norm_num [pick_idea_endpoint, transcriptCandidate, silenceCandidate]

/-- C8 (amended): whenever the waveform has at least win samples, every RMS
entry of the signal extractor is computed over a chunk of exactly win samples
(the final partial chunk is skipped); but when the waveform is nonempty and
shorter than win samples, a single RMS entry is computed over the whole partial
waveform rather than being skipped. -/
theorem rmsChunks_chunk_lengths (y : List ℚ) (win hop : Nat) (hhop : 0 < hop) :
    (win ≤ y.length → ∀ c ∈ rmsChunks y win hop, c.length = win) ∧
    (y ≠ [] → y.length < win → rmsChunks y win hop = [y]) := by
  constructor
  · intro hwin c hc
    rw [rmsChunks] at hc
    rcases List.mem_filter.mp hc with ⟨hcm, _⟩
    rcases List.mem_map.mp hcm with ⟨s, hs, rfl⟩
    have hlt := pyRange_mem_lt hhop hs
    have hsw : s + win ≤ y.length := by omega
    simp only [List.length_take, List.length_drop]
    omega
  · intro hne hlen
    rw [rmsChunks]
    have hm : max 1 (y.length - win) = 1 := by omega
    rw [hm, pyRange]
    have h1 : (1 + hop - 1) / hop = 1 := by
      have : 1 + hop - 1 = hop := by omega
      rw [this, Nat.div_self hhop]
    rw [h1]
    have hr1 : List.range 1 = [0] := rfl
    rw [hr1]
    simp only [List.map_cons, List.map_nil, Nat.zero_mul, List.drop_zero]
    rw [List.take_of_length_le (le_of_lt hlen)]
    have hye : y.isEmpty = false := by
      cases y with
      | nil => exact absurd rfl hne
      | cons a l => rfl
    simp [List.filter, hye]

/-- C8 witness: for a 4-sample waveform with win 2, hop 1, every chunk has
exactly 2 samples; the partial-waveform clause is vacuous here. -/
theorem rmsChunks_chunk_lengths_witness :
    (2 ≤ [(1:ℚ), 2, 3, 4].length → ∀ c ∈ rmsChunks [(1:ℚ), 2, 3, 4] 2 1, c.length = 2) ∧
    ([(1:ℚ), 2, 3, 4] ≠ [] → [(1:ℚ), 2, 3, 4].length < 2 →
      rmsChunks [(1:ℚ), 2, 3, 4] 2 1 = [[1, 2, 3, 4]]) :=
  rmsChunks_chunk_lengths [(1:ℚ), 2, 3, 4] 2 1 (by norm_num)

/-- C8 counterexample: a 5-sample waveform with win 10 and hop 2 produces exactly
one RMS chunk, namely the whole 5-sample waveform: the entry is computed over a
partial chunk of fewer than win samples instead of being skipped. -/
theorem rmsChunks_partial_cex :
    rmsChunks [(1:ℚ), 1, 1, 1, 1] 10 2 = [[1, 1, 1, 1, 1]] ∧
    ¬ (∀ c ∈ rmsChunks [(1:ℚ), 1, 1, 1, 1] 10 2, c.length = 10) := by
  constructor
  · norm_num [rmsChunks, pyRange, List.range_succ]
  · intro hall
    have h5 := hall [1, 1, 1, 1, 1] (by norm_num [rmsChunks, pyRange, List.range_succ])
    simp at h5

/-- C9: for person-segment lists with pairwise distinct start times,
plan_rich_effects is invariant under permutation of its input: the planner
stably sorts the candidates by start time before applying the rule table, and
with distinct keys the sorted list is unique. -/
theorem plan_rich_effects_perm_invariant (d : ℚ) (l1 l2 : List PersonSegment)
    (hp : l1.Perm l2) (hnd : (l1.map PersonSegment.start_sec).Nodup) :
    plan_rich_effects d l1 = plan_rich_effects d l2 := by
  have htot : ∀ a b : PersonSegment, decide (a.start_sec ≤ b.start_sec) = false →
      decide (b.start_sec ≤ a.start_sec) = true := by
    intro a b hab
    simp only [decide_eq_false_iff_not, not_le] at hab
    simp [le_of_lt hab]
  have htr : ∀ a b c : PersonSegment, decide (a.start_sec ≤ b.start_sec) = true →
      decide (b.start_sec ≤ c.start_sec) = true → decide (a.start_sec ≤ c.start_sec) = true := by
    intro a b c h1 h2
    simp only [decide_eq_true_eq] at h1 h2 ⊢
    linarith
  have key : sortBySegStart l1 = sortBySegStart l2 := by
    have hs1 : (sortBySegStart l1).Pairwise (fun a b => a.start_sec ≤ b.start_sec) :=
      (pairwise_sortLe _ htot htr l1).imp (fun hab => by simpa using hab)
    have hs2 : (sortBySegStart l2).Pairwise (fun a b => a.start_sec ≤ b.start_sec) :=
      (pairwise_sortLe _ htot htr l2).imp (fun hab => by simpa using hab)
    have hnd1 : ((sortBySegStart l1).map PersonSegment.start_sec).Nodup :=
      (((sortLe_perm _ l1).map PersonSegment.start_sec).nodup_iff).mpr hnd
    have hnd2 : ((sortBySegStart l2).map PersonSegment.start_sec).Nodup :=
      (((sortLe_perm _ l2).map PersonSegment.start_sec).nodup_iff).mpr
        (((hp.map PersonSegment.start_sec).nodup_iff).mp hnd)
    have hlt1 : (sortBySegStart l1).Pairwise (fun a b => a.start_sec < b.start_sec) :=
      (hs1.and (List.pairwise_map.mp hnd1)).imp (fun hab => lt_of_le_of_ne hab.1 hab.2)
    have hlt2 : (sortBySegStart l2).Pairwise (fun a b => a.start_sec < b.start_sec) :=
      (hs2.and (List.pairwise_map.mp hnd2)).imp (fun hab => lt_of_le_of_ne hab.1 hab.2)
    have hperm : (sortBySegStart l1).Perm (sortBySegStart l2) :=
      (sortLe_perm _ l1).trans (hp.trans (sortLe_perm _ l2).symm)
    haveI : IsAntisymm PersonSegment (fun a b => a.start_sec < b.start_sec) :=
      ⟨fun a b h1 h2 => absurd h1 (not_lt.mpr (le_of_lt h2))⟩
    exact List.eq_of_perm_of_sorted hperm hlt1 hlt2
  simp only [plan_rich_effects, key]

/-- C9 witness: the two orderings of the segments starting at 0 and at 10
(distinct starts) produce the same plan for a 30-second clip. -/
theorem plan_rich_effects_perm_invariant_witness :
    plan_rich_effects 30 [⟨0, 4, 1, 1⟩, ⟨10, 20, 2, 1⟩] =
    plan_rich_effects 30 [⟨10, 20, 2, 1⟩, ⟨0, 4, 1, 1⟩] :=
  plan_rich_effects_perm_invariant 30 [⟨0, 4, 1, 1⟩, ⟨10, 20, 2, 1⟩]
    [⟨10, 20, 2, 1⟩, ⟨0, 4, 1, 1⟩] (List.Perm.swap _ _ _) (by norm_num)

/-- C10: every effect segment emitted by plan_rich_effects has effect type
full_frame, zoom_in, split_screen or pan_left; the enum members zoom_out and
pan_right are never produced by the planner, for any duration and any input. -/
theorem plan_rich_effects_effect_types (d : ℚ) (segs : List PersonSegment)
    (e : EffectSegment) (he : e ∈ plan_rich_effects d segs) :
    e.effect_type = EffectType.full_frame ∨ e.effect_type = EffectType.zoom_in ∨
    e.effect_type = EffectType.split_screen ∨ e.effect_type = EffectType.pan_left := by
  simp only [plan_rich_effects] at he
  rcases List.mem_append.mp he with h1 | h2
  · exact planAux_types (sortBySegStart segs) 0 e h1
  · split at h2
    · rw [List.mem_singleton] at h2
      subst h2
      exact Or.inl rfl
    · exact absurd h2 (List.not_mem_nil e)

/-- C10 witness: the trailing filler of the empty-input plan for a 30-second
clip is a full_frame effect, one of the four produced types. -/
theorem plan_rich_effects_effect_types_witness :
    (⟨(0:ℚ), 30, EffectType.full_frame, fillerParams⟩ : EffectSegment).effect_type =
      EffectType.full_frame ∨
    (⟨(0:ℚ), 30, EffectType.full_frame, fillerParams⟩ : EffectSegment).effect_type =
      EffectType.zoom_in ∨
    (⟨(0:ℚ), 30, EffectType.full_frame, fillerParams⟩ : EffectSegment).effect_type =
      EffectType.split_screen ∨
    (⟨(0:ℚ), 30, EffectType.full_frame, fillerParams⟩ : EffectSegment).effect_type =
      EffectType.pan_left :=
  plan_rich_effects_effect_types 30 [] ⟨0, 30, EffectType.full_frame, fillerParams⟩
    (by norm_num [plan_rich_effects, sortBySegStart, sortLe, planAux, lastEnd])
